import Mathlib

/-!
Verification of the soderbot retrieval core (chatbot-server.prev.js and its
near-duplicate sibling file) against its natural-language specification.

Strings are modelled as `List Char` (JS strings are sequences of UTF-16 code
units; all texts involved here stay within the BMP, where one code unit is one
character).  JS numbers are modelled as real numbers; `Math.log`, `Math.tanh`
and `Math.sqrt` become `Real.log`, `Real.tanh`, `Real.sqrt`.  JS `Map`s are
modelled as insertion-ordered association lists, matching the iteration-order
guarantees of the source.
-/

/- ---------------- Constants (chatbot-server.prev.js lines 29-34) ------- -/

def CHUNK_SIZE : Nat := 800

def MAX_CONTEXT : Nat := 9000

def TOP_K : Nat := 12

def BATCH_EMBED : Nat := 96

/- ---------------- JS Map model ---------------------------------------- -/

/-- `Map.get`: first (and only, since `alistSet` keeps keys unique) binding. -/
def alistLookup {α β : Type} [DecidableEq α] : List (α × β) → α → Option β
  | [], _ => none
  | (a, b) :: rest, k => if a = k then some b else alistLookup rest k

/-- `Map.set`: overwrite in place if the key is present, else append,
matching the insertion-order semantics of a JS `Map`. -/
def alistSet {α β : Type} [DecidableEq α] : List (α × β) → α → β → List (α × β)
  | [], k, v => [(k, v)]
  | (a, b) :: rest, k, v =>
    if a = k then (k, v) :: rest else (a, b) :: alistSet rest k v

/-- The key list of a map, in insertion order. -/
def alistKeys {α β : Type} (m : List (α × β)) : List α := m.map (·.1)

/- ---------------- chunkText (prev.js lines 45-48, part_000 line 41) ---- -/

/-- `function chunkText(s, n = CHUNK_SIZE) { const out = [];
for (let i = 0; i < s.length; i += n) out.push(s.slice(i, i + n)); return out; }`
The `n = 0` branch only totalizes the definition (the JS loop would not
terminate there; every call site passes `CHUNK_SIZE = 800`). -/
def chunkText (s : List Char) (n : Nat) : List (List Char) :=
  if s.isEmpty then []
  else if n = 0 then []
  else s.take n :: chunkText (s.drop n) n
termination_by s.length
decreasing_by
  rename_i h1 h2
  simp only [List.length_drop]
  have hs : s ≠ [] := by simpa [List.isEmpty_iff] using h1
  exact Nat.sub_lt (List.length_pos.mpr hs) (Nat.pos_of_ne_zero h2)

/- ---------------- tokenize (prev.js lines 60-62, part_000 line 53) ---- -/

/-- JS `String.prototype.toLowerCase`, restricted to the alphabet relevant
to `tokenize`: ASCII upper-case letters and the upper-case forms of the
extended letters of the tokenizer's allow-list.  Any other character maps
to itself; its case variants all lie outside the allow-list, so both forms
are token separators and the restriction does not change `tokenize`. -/
def jsToLower (c : Char) : Char :=
  if 'A' ≤ c ∧ c ≤ 'Z' then Char.ofNat (c.toNat + 32)
  else if c = 'Ä' then 'ä'
  else if c = 'Ö' then 'ö'
  else if c = 'Å' then 'å'
  else if c = 'Æ' then 'æ'
  else if c = 'Ø' then 'ø'
  else c

/-- The character class `[a-z0-9äöåæø]` under the regex `i` flag (so the
upper-case forms are also allowed); its complement is the separator class of
`tokenize`'s `split(/[^a-z0-9äöåæø]+/i)`. -/
def isTokenChar (c : Char) : Bool :=
  ('a' ≤ c && c ≤ 'z') || ('0' ≤ c && c ≤ '9') || ('A' ≤ c && c ≤ 'Z') ||
  c == 'ä' || c == 'ö' || c == 'å' || c == 'æ' || c == 'ø' ||
  c == 'Ä' || c == 'Ö' || c == 'Å' || c == 'Æ' || c == 'Ø'

/-- `split(/[^a-z0-9äöåæø]+/i)`: the maximal runs of allow-listed characters,
in order, separator runs discarded.  (JS `split` additionally yields an empty
field at a leading or trailing separator; the `w.length > 1` filter of
`tokenize` removes those either way, so they are dropped here directly.)
`acc` holds the current run, reversed. -/
def splitRunsAux : List Char → List Char → List (List Char)
  | [], acc => if acc.isEmpty then [] else [acc.reverse]
  | c :: rest, acc =>
    if isTokenChar c then splitRunsAux rest (c :: acc)
    else if acc.isEmpty then splitRunsAux rest []
    else acc.reverse :: splitRunsAux rest []

/-- `function tokenize(s) { return String(s).toLowerCase()
.split(/[^a-z0-9äöåæø]+/i).filter(w => w && w.length > 1); }` -/
def tokenize (s : List Char) : List (List Char) :=
  (splitRunsAux (s.map jsToLower) []).filter (fun w => w.length > 1)

/-- `function unique(arr) { return Array.from(new Set(arr)); }`:
first occurrences, in encounter order. -/
def uniqueJs : List (List Char) → List (List Char)
  | [] => []
  | x :: xs => x :: uniqueJs (xs.filter (fun y => y ≠ x))
termination_by l => l.length
decreasing_by
  simp only [List.length_cons]
  exact Nat.lt_succ_of_le (List.length_filter_le _ _)

/- ---------------- word-boundary term counting (crawl, lines 146-147) -- -/

/-- The `\w` class of JS regexes: `[A-Za-z0-9_]`. -/
def isWordChar (c : Char) : Bool :=
  ('a' ≤ c && c ≤ 'z') || ('A' ≤ c && c ≤ 'Z') || ('0' ≤ c && c ≤ '9') || c == '_'

/-- Whether the character at index `i` of `text` exists and is a word
character. -/
def wordAt (text : List Char) (i : Nat) : Bool :=
  match text[i]? with
  | some c => isWordChar c
  | none => false

/-- The `\b` assertion at position `p` of `text` (positions run `0` to
`text.length`): exactly one of the two adjacent characters is a word
character, an out-of-range neighbour counting as non-word. -/
def boundaryAt (text : List Char) (p : Nat) : Bool :=
  (if p = 0 then false else wordAt text (p - 1)) != wordAt text p

/-- Case-insensitive literal occurrence of `pat` at index `i` of `text`
(the regex `i` flag; `escapeForWordBoundary` is the identity on tokenizer
output, whose characters are all outside the regex special set, so the
pattern body is the literal term). -/
def ciMatchAt (pat text : List Char) (i : Nat) : Bool :=
  ((text.drop i).take pat.length).map jsToLower == pat.map jsToLower

/-- A match of `new RegExp("\\b" + t + "\\b")` starting at index `i`. -/
def wbMatchAt (pat text : List Char) (i : Nat) : Bool :=
  decide (i + pat.length ≤ text.length) && ciMatchAt pat text i &&
  boundaryAt text i && boundaryAt text (i + pat.length)

/-- The left-to-right non-overlapping scan of
`d.chunk.match(/\b t \b/gi)`: on a match the cursor jumps past it, else it
advances one position.  `fuel` only bounds the recursion; it starts at
`text.length + 1`, enough to push the cursor past the last possible start
for any non-empty pattern (tokenizer output has length ≥ 2). -/
def wbCountGo (pat text : List Char) : Nat → Nat → Nat
  | 0, _ => 0
  | fuel + 1, i =>
    if text.length < i + pat.length then 0
    else if wbMatchAt pat text i then 1 + wbCountGo pat text fuel (i + pat.length)
    else wbCountGo pat text fuel (i + 1)

/-- `(d.chunk.match(re) || []).length` for `re = /\b t \b/gi`. -/
def wbCount (pat text : List Char) : Nat := wbCountGo pat text (text.length + 1) 0

/-- The per-term body of the TF loop of `crawl` (prev.js lines 145-149):
`const count = (d.chunk.match(re) || []).length || 1; tf.set(t, count);`,
iterated over the list `terms`. -/
def setTfTerms (text : List Char) (tf : List (List Char × Nat)) :
    List (List Char) → List (List Char × Nat)
  | [] => tf
  | t :: rest =>
    setTfTerms text (alistSet tf t (if wbCount t text = 0 then 1 else wbCount t text)) rest

/-- The complete term-frequency table of one chunk. -/
def tfOfChunk (text : List Char) : List (List Char × Nat) :=
  setTfTerms text [] (uniqueJs (tokenize text))

/- ---------------- the knowledge base ---------------------------------- -/

/-- One entry of `KB`: `{ id, url, lang: "en", chunk, vec? }`. -/
structure Chunk where
  id : Nat
  url : List Char
  lang : List Char
  chunk : List Char
  vec : Option (List ℝ)

/-- The module-level mutable triple `(KB, VOCAB_IDF, CHUNK_TF)`
(prev.js lines 40-42). -/
structure KBState where
  KB : List Chunk
  VOCAB_IDF : List (List Char × ℝ)
  CHUNK_TF : List (Nat × List (List Char × Nat))

/-- The chunk-pushing loop of `crawl` (prev.js lines 131-133):
`for (const c of pieces) KB.push({ id: idCounter++, url, lang: "en", chunk: c })`.
The running `idCounter` always equals `KB.length`, since every push
increments both by one, so the fresh id is written as the current length. -/
def pushChunks (kb : List Chunk) (url : List Char) : List (List Char) → List Chunk
  | [] => kb
  | c :: rest => pushChunks (kb ++ [⟨kb.length, url, "en".toList, c, none⟩]) url rest

/-- The page loop of `crawl` (prev.js lines 127-135), parameterized by the
outcome of each `fetchPageStrong` call (an external fetch; `none` is a
skipped page — fetch failure or below-threshold content). -/
def crawlPagesFrom (fetchResult : List Char → Option (List Char))
    (kb : List Chunk) : List (List Char) → List Chunk
  | [] => kb
  | url :: rest =>
    match fetchResult url with
    | none => crawlPagesFrom fetchResult kb rest
    | some doc => crawlPagesFrom fetchResult (pushChunks kb url (chunkText doc CHUNK_SIZE)) rest

def crawlPages (fetchResult : List Char → Option (List Char))
    (urls : List (List Char)) : List Chunk :=
  crawlPagesFrom fetchResult [] urls

/- ---------------- sparse index build (prev.js lines 138-157) ---------- -/

/-- `for (const t of terms) df.set(t, (df.get(t) || 0) + 1);` -/
def bumpDf (df : List (List Char × Nat)) : List (List Char) → List (List Char × Nat)
  | [] => df
  | t :: rest => bumpDf (alistSet df t ((alistLookup df t).getD 0 + 1)) rest

/-- The document-frequency pass of `crawl`.  (The source fills `df` and
`CHUNK_TF` inside one loop over `KB`; the two accumulators never read each
other, so they are modelled as two folds over the same list.) -/
def buildDfFrom (df : List (List Char × Nat)) : List Chunk → List (List Char × Nat)
  | [] => df
  | d :: rest => buildDfFrom (bumpDf df (uniqueJs (tokenize d.chunk))) rest

def buildDf (kb : List Chunk) : List (List Char × Nat) := buildDfFrom [] kb

/-- `CHUNK_TF.set(d.id, tf)` over the chunk loop. -/
def buildChunkTfFrom (m : List (Nat × List (List Char × Nat))) :
    List Chunk → List (Nat × List (List Char × Nat))
  | [] => m
  | d :: rest => buildChunkTfFrom (alistSet m d.id (tfOfChunk d.chunk)) rest

def buildChunkTf (kb : List Chunk) : List (Nat × List (List Char × Nat)) :=
  buildChunkTfFrom [] kb

/-- `const N = KB.length || 1;` -/
def jsN (kb : List Chunk) : Nat := if kb.length = 0 then 1 else kb.length

/-- The number of distinct chunks whose token list contains `t` (what the
`df` map records for a present term). -/
def dfCount (kb : List Chunk) (t : List Char) : Nat :=
  (kb.filter (fun d => decide (t ∈ uniqueJs (tokenize d.chunk)))).length

/-- `for (const [t, dfVal] of df.entries()) {
const idf = Math.log((N + 1) / (dfVal + 0.5)); VOCAB_IDF.set(t, idf); }` -/
noncomputable def buildVocabIdf (kb : List Chunk) : List (List Char × ℝ) :=
  (buildDf kb).map (fun p => (p.1, Real.log (((jsN kb : ℝ) + 1) / ((p.2 : ℝ) + 0.5))))

/- ---------------- embedAllChunks (prev.js lines 162-179) --------------- -/

/-- The KB after the first `m` chunks have received their vectors:
`resp.data.forEach((e, i) => { KB[start + i].vec = e.embedding; })` with
`embedVec i` the embedding the external service returns for chunk `i`
(batching preserves input order, so vectors map back by position). -/
def setVecsUpTo (kb : List Chunk) (embedVec : Nat → List ℝ) (m : Nat) : List Chunk :=
  kb.enum.map (fun p =>
    if p.1 < m then ⟨p.2.id, p.2.url, p.2.lang, p.2.chunk, some (embedVec p.1)⟩ else p.2)

def numBatches (n : Nat) : Nat := (n + BATCH_EMBED - 1) / BATCH_EMBED

/-- The successive states of the module-level `(KB, VOCAB_IDF, CHUNK_TF)`
triple that a concurrently running query can observe while `crawl` runs: one
entry per `await` suspension point of `crawl`, in program order — during the
sitemap fetch (tables just cleared, prev.js line 122), during the fetch of
each page (the chunks of the already-processed pages pushed, lexical tables
still empty), during each embedding batch (lexical tables complete, vectors
present only on chunks of completed batches), and the final state.  Between
two consecutive `await`s the single JS thread runs `crawl` atomically. -/
noncomputable def crawlStates (fetchResult : List Char → Option (List Char))
    (urls : List (List Char)) (embedVec : Nat → List ℝ) : List KBState :=
  let kbFull := crawlPages fetchResult urls
  let idf := buildVocabIdf kbFull
  let tf := buildChunkTf kbFull
  ⟨[], [], []⟩ ::
    ((List.range urls.length).map fun k => ⟨crawlPages fetchResult (urls.take k), [], []⟩) ++
    ((List.range (numBatches kbFull.length)).map fun j =>
      ⟨setVecsUpTo kbFull embedVec (BATCH_EMBED * j), idf, tf⟩) ++
    [⟨setVecsUpTo kbFull embedVec kbFull.length, idf, tf⟩]

/- ---------------- retrieval (prev.js lines 182-214) -------------------- -/

/-- `function cosine(a, b)` (prev.js lines 64-69): one loop over the indices
below `a.length` accumulating `dot`, `na`, `nb`; modelled over the pointwise
pairs `a.zip b`, which is the same computation for the equal-length vectors
the program compares (a longer `a` would make JS read `undefined` and
produce `NaN`, which has no counterpart in the real-number embedding). -/
noncomputable def cosine (a b : List ℝ) : ℝ :=
  let pr := a.zip b
  let dot := pr.foldl (fun s q => s + q.1 * q.2) 0
  let na := pr.foldl (fun s q => s + q.1 * q.1) 0
  let nb := pr.foldl (fun s q => s + q.2 * q.2) 0
  if na = 0 ∨ nb = 0 then 0 else dot / (Real.sqrt na * Real.sqrt nb)

/-- One term's lexical contribution (prev.js lines 198-201):
`const f = tf.get(t) || 0; const idf = VOCAB_IDF.get(t) || 0;
const denom = 1 + 0.25 + f; sparse += (idf * (f * 1.2) / denom);` -/
noncomputable def lexContrib (idf : ℝ) (f : Nat) : ℝ :=
  idf * ((f : ℝ) * 1.2) / (1 + 0.25 + (f : ℝ))

/-- The accumulation of `sparse` over the query's distinct terms. -/
noncomputable def sparseGo (vocab : List (List Char × ℝ))
    (tf : List (List Char × Nat)) (acc : ℝ) : List (List Char) → ℝ
  | [] => acc
  | t :: rest =>
    sparseGo vocab tf
      (acc + lexContrib ((alistLookup vocab t).getD 0) ((alistLookup tf t).getD 0)) rest

noncomputable def sparseScore (vocab : List (List Char × ℝ))
    (tf : List (List Char × Nat)) (terms : List (List Char)) : ℝ :=
  sparseGo vocab tf 0 terms

/-- `const dense = d.vec ? cosine(qv, d.vec) : 0;` -/
noncomputable def denseOf (qv : List ℝ) (d : Chunk) : ℝ :=
  match d.vec with
  | some v => cosine qv v
  | none => 0

/-- `let sparse = 0; const tf = CHUNK_TF.get(d.id); if (tf) { ... }` -/
noncomputable def sparseOf (st : KBState) (terms : List (List Char)) (d : Chunk) : ℝ :=
  match alistLookup st.CHUNK_TF d.id with
  | some tf => sparseScore st.VOCAB_IDF tf terms
  | none => 0

/-- `const score = 0.7 * dense + 0.3 * Math.tanh(sparse);` -/
noncomputable def scoreChunk (st : KBState) (qv : List ℝ)
    (terms : List (List Char)) (d : Chunk) : ℝ :=
  0.7 * denseOf qv d + 0.3 * Real.tanh (sparseOf st terms d)

/-- The scoring loop: `if (score > 0) scored.push({ d, score });` -/
noncomputable def scoredGo (st : KBState) (qv : List ℝ)
    (terms : List (List Char)) : List Chunk → List (Chunk × ℝ)
  | [] => []
  | d :: rest =>
    if 0 < scoreChunk st qv terms d then
      (d, scoreChunk st qv terms d) :: scoredGo st qv terms rest
    else scoredGo st qv terms rest

noncomputable def scoredChunks (st : KBState) (qv : List ℝ)
    (terms : List (List Char)) : List (Chunk × ℝ) :=
  scoredGo st qv terms st.KB

/-- `scored.sort((a, b) => b.score - a.score);`: `Array.prototype.sort` is
specified to be stable, and with this comparator the unique result is the
stable descending order by score — insertion sort with
`r p q := q.score ≤ p.score`. -/
noncomputable def rankDesc (l : List (Chunk × ℝ)) : List (Chunk × ℝ) :=
  List.insertionSort (fun p q => q.2 ≤ p.2) l

/-- `"[Source] " + d.url + "\n" + d.chunk + "\n\n"` -/
def renderEntry (d : Chunk) : List Char :=
  "[Source] ".toList ++ d.url ++ ['\n'] ++ d.chunk ++ ['\n', '\n']

/-- The context-assembly loop (prev.js lines 208-213):
`for (const { d } of scored.slice(0, TOP_K)) {
if (ctx.length + d.chunk.length > MAX_CONTEXT) break; ctx += ...; }` -/
def buildCtx : List (Chunk × ℝ) → List Char → List Char
  | [], ctx => ctx
  | (d, _) :: rest, ctx =>
    if MAX_CONTEXT < ctx.length + d.chunk.length then ctx
    else buildCtx rest (ctx ++ renderEntry d)

/-- `retrieveContext`, with the query's embedding vector `qv` passed as a
parameter (the source obtains it from the external embedding service after
the emptiness check). -/
noncomputable def retrieveContext (st : KBState) (qv : List ℝ)
    (query : List Char) : List Char :=
  if st.KB.isEmpty then []
  else buildCtx ((rankDesc (scoredChunks st qv (uniqueJs (tokenize query)))).take TOP_K) []

/-- The largest URL length among the chunks of a KB (used to bound the
uncounted per-entry decoration of `buildCtx`). -/
def maxUrlLen (kb : List Chunk) : Nat :=
  kb.foldr (fun d m => max d.url.length m) 0

/- ---------------- the two implementations (C8) ------------------------- -/

def startsWith2 (a b : Char) (p : List Char) : Bool :=
  match p with
  | x :: y :: _ => x == a && y == b
  | _ => false

def startsWith3 (a b c : Char) (p : List Char) : Bool :=
  match p with
  | x :: y :: z :: _ => x == a && y == b && z == c
  | _ => false

/-- The language filter of `getSitemapUrls` in chatbot-server.prev.js
(line 86): `if (path.startsWith("fi") || path === "fi" ||
path.startsWith("sv") || path === "sv") continue;` — `true` means the
sitemap path is excluded. -/
def excludedLangPath_prev (p : List Char) : Bool :=
  startsWith2 'f' 'i' p || p == ['f', 'i'] || startsWith2 's' 'v' p || p == ['s', 'v']

/-- The language filter of `getSitemapUrls` in part_000 (line 67):
`if(path==="fi"||path.startsWith("fi/")||path==="sv"||path.startsWith("sv/")) continue;` -/
def excludedLangPath_alt (p : List Char) : Bool :=
  p == ['f', 'i'] || startsWith3 'f' 'i' '/' p || p == ['s', 'v'] || startsWith3 's' 'v' '/' p

/-- `chunkText` of part_000 (line 41); the source text is identical to the
prev.js version up to whitespace. -/
def chunkText_alt (s : List Char) (n : Nat) : List (List Char) :=
  if s.isEmpty then []
  else if n = 0 then []
  else s.take n :: chunkText_alt (s.drop n) n
termination_by s.length
decreasing_by
  rename_i h1 h2
  simp only [List.length_drop]
  have hs : s ≠ [] := by simpa [List.isEmpty_iff] using h1
  exact Nat.sub_lt (List.length_pos.mpr hs) (Nat.pos_of_ne_zero h2)

/-- `tokenize` of part_000 (line 53); the source text is identical to the
prev.js version up to whitespace. -/
def tokenize_alt (s : List Char) : List (List Char) :=
  (splitRunsAux (s.map jsToLower) []).filter (fun w => w.length > 1)

/-- `cosine` of part_000 (line 55): `if(!na||!nb) return 0;` — for the
non-negative square-sums involved, JS falsiness of a number is equality
with `0` (as in prev.js's `na === 0 || nb === 0`). -/
noncomputable def cosine_alt (a b : List ℝ) : ℝ :=
  let pr := a.zip b
  let dot := pr.foldl (fun s q => s + q.1 * q.2) 0
  let na := pr.foldl (fun s q => s + q.1 * q.1) 0
  let nb := pr.foldl (fun s q => s + q.2 * q.2) 0
  if na = 0 ∨ nb = 0 then 0 else dot / (Real.sqrt na * Real.sqrt nb)

/-- The lexical contribution of part_000 (line 141):
`sparse += idf*(1.2*f)/denom;` (prev.js writes `f * 1.2`). -/
noncomputable def lexContrib_alt (idf : ℝ) (f : Nat) : ℝ :=
  idf * (1.2 * (f : ℝ)) / (1 + 0.25 + (f : ℝ))

/- ---------------- the /chat handler (C10) ------------------------------ -/

/-- A JSON value as the `/chat` handler can see `req.body?.message`
(numbers as integers: the claim only concerns truthiness, and `NaN` never
arrives through `JSON.parse`). -/
inductive JsonVal where
  | vnull
  | vstr (s : List Char)
  | vnum (n : Int)
  | vbool (b : Bool)
deriving DecidableEq

/-- JS truthiness of such a value. -/
def truthy : JsonVal → Bool
  | .vnull => false
  | .vstr s => !s.isEmpty
  | .vnum n => decide (n ≠ 0)
  | .vbool b => b

inductive ChatOutcome where
  | rejected
  | proceeds (msg : JsonVal)
deriving DecidableEq

/-- `const msg = req.body?.message || "";
if (!msg) return res.json({ reply: "Please type a message." });`
(prev.js lines 219-221).  `message = none` models an absent field
(`undefined`); `rejected` is the early `"Please type a message."` reply, and
`proceeds msg` continues into `retrieveContext(msg)` and generation. -/
def chatHandle (message : Option JsonVal) : ChatOutcome :=
  let msg := match message with
    | none => JsonVal.vstr []
    | some v => if truthy v then v else JsonVal.vstr []
  if truthy msg then ChatOutcome.proceeds msg else ChatOutcome.rejected

/- ---------------- concrete inputs used by witnesses -------------------- -/

def urlServices : List Char := "https://www.sodermanaudiovisual.com/services".toList

def urlAbout : List Char := "https://www.sodermanaudiovisual.com/about-us".toList

/-- An 11-chunk generation exactly as one crawl pass of the site could build
it: a 7600-character services page (nine 800-character chunks and one
400-character tail) followed by an 800-character about page, every chunk
embedded. -/
noncomputable def kbC1 : List Chunk :=
  [⟨0, urlServices, "en".toList, List.replicate 800 'x', some [1]⟩,
   ⟨1, urlServices, "en".toList, List.replicate 800 'x', some [1]⟩,
   ⟨2, urlServices, "en".toList, List.replicate 800 'x', some [1]⟩,
   ⟨3, urlServices, "en".toList, List.replicate 800 'x', some [1]⟩,
   ⟨4, urlServices, "en".toList, List.replicate 800 'x', some [1]⟩,
   ⟨5, urlServices, "en".toList, List.replicate 800 'x', some [1]⟩,
   ⟨6, urlServices, "en".toList, List.replicate 800 'x', some [1]⟩,
   ⟨7, urlServices, "en".toList, List.replicate 800 'x', some [1]⟩,
   ⟨8, urlServices, "en".toList, List.replicate 800 'x', some [1]⟩,
   ⟨9, urlServices, "en".toList, List.replicate 400 'x', some [1]⟩,
   ⟨10, urlAbout, "en".toList, List.replicate 800 'x', some [1]⟩]

noncomputable def stC1 : KBState := ⟨kbC1, buildVocabIdf kbC1, buildChunkTf kbC1⟩

def docC2 : List Char := List.replicate 200 'x'

def fetchC2 : List Char → Option (List Char) := fun u =>
  if u = urlServices then some docC2
  else if u = urlAbout then some docC2
  else none

noncomputable def embedC2 : Nat → List ℝ := fun _ => [1]

def kbC4 : List Chunk :=
  [⟨0, urlServices, "en".toList, "hello world hello".toList, none⟩]

/- ---------------- theorems ------------------------------------------- -/

theorem chunkText_nil (n : Nat) : chunkText [] n = [] := by
  rw [chunkText]; rfl

theorem chunkText_cons (s : List Char) (n : Nat) (hs : s ≠ []) (hn : 0 < n) :
    chunkText s n = s.take n :: chunkText (s.drop n) n := by
  rw [chunkText]
  simp [List.isEmpty_iff, hs, Nat.pos_iff_ne_zero.mp hn]

theorem chunkText_flatten (s : List Char) (n : Nat) (hn : 0 < n) :
    (chunkText s n).flatten = s := by
  induction s, n using chunkText.induct with
  | case1 s n h =>
    rw [chunkText, if_pos h]
    simp only [List.isEmpty_iff] at h
    simp [h]
  | case2 s h => omega
  | case3 s n h1 h2 ih =>
    rw [chunkText, if_neg h1, if_neg h2, List.flatten_cons, ih hn]
    exact List.take_append_drop n s

theorem chunkText_length_le (s : List Char) (n : Nat) (hn : 0 < n) :
    ∀ c ∈ chunkText s n, c.length ≤ n := by
  induction s, n using chunkText.induct with
  | case1 s n h => rw [chunkText, if_pos h]; simp
  | case2 s h => omega
  | case3 s n h1 h2 ih =>
    rw [chunkText, if_neg h1, if_neg h2]
    intro c hc
    rcases List.mem_cons.mp hc with h | h
    · subst h
      simp [List.length_take]
    · exact ih hn c h

theorem chunkText_count (s : List Char) (n : Nat) (hn : 0 < n) :
    (chunkText s n).length = (s.length + n - 1) / n := by
  induction s, n using chunkText.induct with
  | case1 s n h =>
    rw [chunkText, if_pos h]
    simp only [List.isEmpty_iff] at h
    simp [h, Nat.div_eq_of_lt (by omega : n - 1 < n)]
  | case2 s h => omega
  | case3 s n h1 h2 ih =>
    rw [chunkText, if_neg h1, if_neg h2, List.length_cons, ih hn, List.length_drop]
    have hs : s ≠ [] := by simpa [List.isEmpty_iff] using h1
    have hL : 0 < s.length := List.length_pos.mpr hs
    rcases Nat.lt_or_ge n s.length with hgt | hle
    · have e1 : s.length - n + n - 1 = s.length - n - 1 + n := by omega
      have e2 : s.length + n - 1 = s.length - n - 1 + n + n := by omega
      rw [e1, e2, Nat.add_div_right _ hn, Nat.add_div_right _ hn,
        Nat.add_div_right _ hn]
    · have hz : s.length - n = 0 := Nat.sub_eq_zero_of_le hle
      have hdiv1 : (0 + n - 1) / n = 0 := Nat.div_eq_of_lt (by omega)
      have hdiv2 : (s.length + n - 1) / n = 1 := Nat.div_eq_of_lt_le (by omega) (by omega)
      rw [hz, hdiv1, hdiv2]

theorem chunkText_full_except_last (s : List Char) (n : Nat) (hn : 0 < n) :
    ∀ c ∈ (chunkText s n).dropLast, c.length = n := by
  induction s, n using chunkText.induct with
  | case1 s n h => rw [chunkText, if_pos h]; simp
  | case2 s h => omega
  | case3 s n h1 h2 ih =>
    rw [chunkText, if_neg h1, if_neg h2]
    by_cases hdrop : s.drop n = []
    · rw [hdrop, chunkText_nil]
      simp
    · have htail : chunkText (s.drop n) n ≠ [] := by
        rw [chunkText_cons _ _ hdrop hn]
        simp
      rw [List.dropLast_cons_of_ne_nil htail]
      intro c hc
      rcases List.mem_cons.mp hc with h | h
      · subst h
        have hlen : n < s.length := by
          by_contra hcon
          push_neg at hcon
          exact hdrop (List.drop_eq_nil_of_le hcon)
        simp [List.length_take]
        omega
      · exact ih hn c h

/-- C3: for every input string and positive `N`, `chunkText` returns an
ordered sequence of slices whose concatenation is exactly the input, each
chunk of length at most `N`, every chunk except possibly the last of length
exactly `N`, and the number of chunks is `⌈|s| / N⌉` (computed as
`(|s| + N - 1) / N`, which is `0` for the empty string). -/
theorem claim_chunker_correct (s : List Char) (n : Nat) (hn : 0 < n) :
    (chunkText s n).flatten = s ∧
    (∀ c ∈ chunkText s n, c.length ≤ n) ∧
    (∀ c ∈ (chunkText s n).dropLast, c.length = n) ∧
    (chunkText s n).length = (s.length + n - 1) / n :=
  ⟨chunkText_flatten s n hn, chunkText_length_le s n hn,
   chunkText_full_except_last s n hn, chunkText_count s n hn⟩

/-- C3 witness: the chunker claim evaluated at `"abcdefgh"` with `N = 3`. -/
theorem claim_chunker_correct_witness :
    (0 < 3 ∧
      (chunkText "abcdefgh".toList 3).flatten = "abcdefgh".toList ∧
      (∀ c ∈ chunkText "abcdefgh".toList 3, c.length ≤ 3) ∧
      (∀ c ∈ (chunkText "abcdefgh".toList 3).dropLast, c.length = 3) ∧
      (chunkText "abcdefgh".toList 3).length = ("abcdefgh".toList.length + 3 - 1) / 3) :=
  ⟨by decide, (claim_chunker_correct "abcdefgh".toList 3 (by decide)).1,
   (claim_chunker_correct "abcdefgh".toList 3 (by decide)).2.1,
   (claim_chunker_correct "abcdefgh".toList 3 (by decide)).2.2.1,
   (claim_chunker_correct "abcdefgh".toList 3 (by decide)).2.2.2⟩

/- ---------------- association-list lemmas ----------------------------- -/

theorem alistLookup_set_self {α β : Type} [DecidableEq α]
    (m : List (α × β)) (k : α) (v : β) :
    alistLookup (alistSet m k v) k = some v := by
  induction m with
  | nil => simp [alistSet, alistLookup]
  | cons p rest ih =>
    obtain ⟨a, b⟩ := p
    by_cases h : a = k
    · subst h
      simp [alistSet, alistLookup]
    · simp [alistSet, alistLookup, h, ih]

theorem alistLookup_set_ne {α β : Type} [DecidableEq α]
    (m : List (α × β)) (k : α) (v : β) (x : α) (h : x ≠ k) :
    alistLookup (alistSet m k v) x = alistLookup m x := by
  induction m with
  | nil => simp [alistSet, alistLookup, Ne.symm h]
  | cons p rest ih =>
    obtain ⟨a, b⟩ := p
    by_cases hak : a = k
    · subst hak
      simp [alistSet, alistLookup, Ne.symm h]
    · by_cases hax : a = x
      · subst hax
        simp [alistSet, alistLookup, hak]
      · simp [alistSet, alistLookup, hak, hax, ih]

theorem alistSet_of_not_mem {α β : Type} [DecidableEq α]
    (m : List (α × β)) (k : α) (v : β) (h : k ∉ alistKeys m) :
    alistSet m k v = m ++ [(k, v)] := by
  induction m with
  | nil => simp [alistSet]
  | cons p rest ih =>
    obtain ⟨a, b⟩ := p
    simp only [alistKeys, List.map_cons, List.mem_cons] at h
    push_neg at h
    simp [alistSet, Ne.symm h.1, ih (by simpa [alistKeys] using h.2)]

/- ---------------- uniqueJs lemmas ------------------------------------- -/

theorem mem_uniqueJs (l : List (List Char)) (a : List Char) :
    a ∈ uniqueJs l ↔ a ∈ l := by
  induction l using uniqueJs.induct with
  | case1 => simp [uniqueJs]
  | case2 x xs ih =>
    rw [uniqueJs]
    by_cases hax : a = x
    · simp [hax]
    · simp only [List.mem_cons, ih, List.mem_filter, decide_eq_true_eq]
      simp [hax]

theorem nodup_uniqueJs (l : List (List Char)) : (uniqueJs l).Nodup := by
  induction l using uniqueJs.induct with
  | case1 => simp [uniqueJs]
  | case2 x xs ih =>
    rw [uniqueJs]
    refine List.nodup_cons.mpr ⟨?_, ih⟩
    intro hx
    have := (mem_uniqueJs _ _).mp hx
    simp at this

/- ---------------- cosine (C7) ----------------------------------------- -/

theorem foldl_add_sum {α : Type} (g : α → ℝ) (l : List α) (c : ℝ) :
    l.foldl (fun s q => s + g q) c = c + (l.map g).sum := by
  induction l generalizing c with
  | nil => simp
  | cons x xs ih => simp [ih, add_assoc]

theorem zip_self_map {α β : Type} (f : α × α → β) (v : List α) :
    (v.zip v).map f = v.map (fun x => f (x, x)) := by
  induction v with
  | nil => rfl
  | cons x xs ih => simp [List.zip_cons_cons, ih]

theorem cosine_def (a b : List ℝ) :
    cosine a b =
      if ((a.zip b).map (fun q => q.1 * q.1)).sum = 0 ∨
          ((a.zip b).map (fun q => q.2 * q.2)).sum = 0 then 0
      else ((a.zip b).map (fun q => q.1 * q.2)).sum /
        (Real.sqrt (((a.zip b).map (fun q => q.1 * q.1)).sum) *
          Real.sqrt (((a.zip b).map (fun q => q.2 * q.2)).sum)) := by
  simp only [cosine, foldl_add_sum, zero_add]

/-- C7: for equal-length vectors, `cosine v v = 1` whenever `v` has a
non-zero component, `cosine` against a zero vector is `0` by the
zero-magnitude convention, and `cosine` is symmetric. -/
theorem claim_cosine_props :
    (∀ v : List ℝ, (∃ x ∈ v, x ≠ 0) → cosine v v = 1) ∧
    (∀ (v : List ℝ) (n : ℕ), cosine v (List.replicate n 0) = 0) ∧
    (∀ a b : List ℝ, a.length = b.length → cosine a b = cosine b a) := by
  refine ⟨?_, ?_, ?_⟩
  · rintro v ⟨x, hxv, hx⟩
    rw [cosine_def]
    rw [zip_self_map, zip_self_map, zip_self_map]
    have hS : 0 < (v.map (fun y => y * y)).sum := by
      have hnn : ∀ y ∈ v.map (fun y => y * y), 0 ≤ y := by
        intro y hy
        obtain ⟨z, _, rfl⟩ := List.mem_map.mp hy
        exact mul_self_nonneg z
      have hmem : x * x ∈ v.map (fun y => y * y) := List.mem_map.mpr ⟨x, hxv, rfl⟩
      have hle := List.single_le_sum hnn _ hmem
      have hpos : 0 < x * x := mul_self_pos.mpr hx
      linarith
    rw [if_neg (by push_neg; exact ⟨ne_of_gt hS, ne_of_gt hS⟩)]
    rw [Real.mul_self_sqrt (le_of_lt hS)]
    exact div_self (ne_of_gt hS)
  · intro v n
    rw [cosine_def]
    have hz : ((v.zip (List.replicate n 0)).map (fun q : ℝ × ℝ => q.2 * q.2)).sum = 0 := by
      apply List.sum_eq_zero
      intro y hy
      obtain ⟨q, hq, rfl⟩ := List.mem_map.mp hy
      have h2 : q.2 ∈ List.replicate n (0 : ℝ) := by
        obtain ⟨q1, q2⟩ := q
        exact (List.of_mem_zip hq).2
      rw [List.eq_of_mem_replicate h2]
      ring
    rw [if_pos (Or.inr hz)]
  · intro a b _
    have hswap : b.zip a = (a.zip b).map Prod.swap := (List.zip_swap a b).symm
    have e1 : ((b.zip a).map (fun q => q.1 * q.2)).sum =
        ((a.zip b).map (fun q => q.1 * q.2)).sum := by
      rw [hswap, List.map_map]
      congr 1
      apply List.map_congr_left
      intro q _
      simp [Prod.swap, mul_comm]
    have e2 : ((b.zip a).map (fun q => q.1 * q.1)).sum =
        ((a.zip b).map (fun q => q.2 * q.2)).sum := by
      rw [hswap, List.map_map]
      congr 1
    have e3 : ((b.zip a).map (fun q => q.2 * q.2)).sum =
        ((a.zip b).map (fun q => q.1 * q.1)).sum := by
      rw [hswap, List.map_map]
      congr 1
    rw [cosine_def, cosine_def, e1, e2, e3]
    by_cases h : ((a.zip b).map (fun q => q.1 * q.1)).sum = 0 ∨
        ((a.zip b).map (fun q => q.2 * q.2)).sum = 0
    · rw [if_pos h, if_pos (Or.symm h)]
    · rw [if_neg h, if_neg (fun hc => h (Or.symm hc)), mul_comm]

/-- C7 witness: the three cosine properties at concrete vectors. -/
theorem claim_cosine_props_witness :
    cosine [1, 2] [1, 2] = 1 ∧
    cosine [3] (List.replicate 1 0) = 0 ∧
    cosine [1, 2] [2, 1] = cosine [2, 1] [1, 2] :=
  ⟨claim_cosine_props.1 [1, 2] ⟨1, by simp, one_ne_zero⟩,
   claim_cosine_props.2.1 [3] 1,
   claim_cosine_props.2.2 [1, 2] [2, 1] rfl⟩

/- ---------------- lexical contribution (C6) ---------------------------- -/

theorem lexContrib_zero (idf : ℝ) : lexContrib idf 0 = 0 := by
  simp [lexContrib]

theorem lexContrib_mono (idf : ℝ) (h : 0 < idf) (f1 f2 : ℕ) (hf : f1 ≤ f2) :
    lexContrib idf f1 ≤ lexContrib idf f2 := by
  unfold lexContrib
  have hc : (f1 : ℝ) ≤ (f2 : ℝ) := Nat.cast_le.mpr hf
  have h1 : (0:ℝ) < 1 + 0.25 + (f1:ℝ) := by positivity
  have h2 : (0:ℝ) < 1 + 0.25 + (f2:ℝ) := by positivity
  rw [div_le_div_iff₀ h1 h2]
  have hf1 : (0:ℝ) ≤ (f1:ℝ) := Nat.cast_nonneg _
  nlinarith [h, hc, hf1]

theorem lexContrib_diff (idf : ℝ) (f : ℕ) :
    lexContrib idf (f + 1) - lexContrib idf f =
      idf * 1.5 / ((1.25 + (f : ℝ)) * (2.25 + (f : ℝ))) := by
  unfold lexContrib
  push_cast
  have h1 : (1:ℝ) + 0.25 + (f:ℝ) ≠ 0 := by positivity
  have h2 : (1:ℝ) + 0.25 + ((f:ℝ) + 1) ≠ 0 := by positivity
  have h3 : (1.25:ℝ) + (f:ℝ) ≠ 0 := by positivity
  have h4 : (2.25:ℝ) + (f:ℝ) ≠ 0 := by positivity
  field_simp
  ring

theorem lexContrib_saturation (idf : ℝ) (h : 0 < idf) (f : ℕ) :
    lexContrib idf (f + 2) - lexContrib idf (f + 1) <
      lexContrib idf (f + 1) - lexContrib idf f := by
  have d1 := lexContrib_diff idf f
  have d2 := lexContrib_diff idf (f + 1)
  have e : f + 1 + 1 = f + 2 := rfl
  rw [e] at d2
  rw [d2, d1]
  have hf0 : (0:ℝ) ≤ (f:ℝ) := Nat.cast_nonneg _
  apply div_lt_div_of_pos_left
  · positivity
  · positivity
  · push_cast
    nlinarith [hf0]

theorem sparseGo_zero (vocab : List (List Char × ℝ)) (tf : List (List Char × Nat))
    (terms : List (List Char)) (h : ∀ t ∈ terms, alistLookup tf t = none) :
    ∀ acc, sparseGo vocab tf acc terms = acc := by
  induction terms with
  | nil => intro acc; rfl
  | cons t rest ih =>
    intro acc
    rw [sparseGo]
    rw [h t (List.mem_cons_self t rest)]
    simp only [Option.getD_none, lexContrib_zero, add_zero]
    exact ih (fun u hu => h u (List.mem_cons_of_mem t hu)) acc

/-- C6: for a term with positive IDF, the lexical contribution
`idf * (1.2 * tf) / (1 + 0.25 + tf)` is `0` at `tf = 0`, never decreases as
`tf` grows, and its marginal increase per additional occurrence strictly
shrinks; a chunk whose TF table contains none of the query's terms gets a
sparse score of exactly `0`. -/
theorem claim_lexical_saturation (idf : ℝ) (h : 0 < idf) :
    lexContrib idf 0 = 0 ∧
    (∀ f1 f2 : ℕ, f1 ≤ f2 → lexContrib idf f1 ≤ lexContrib idf f2) ∧
    (∀ f : ℕ, lexContrib idf (f + 2) - lexContrib idf (f + 1) <
      lexContrib idf (f + 1) - lexContrib idf f) ∧
    (∀ (vocab : List (List Char × ℝ)) (tf : List (List Char × Nat))
        (terms : List (List Char)), (∀ t ∈ terms, alistLookup tf t = none) →
      sparseScore vocab tf terms = 0) :=
  ⟨lexContrib_zero idf,
   fun f1 f2 hf => lexContrib_mono idf h f1 f2 hf,
   fun f => lexContrib_saturation idf h f,
   fun vocab tf terms hnone => sparseGo_zero vocab tf terms hnone 0⟩

/-- C6 witness: the lexical-saturation claim evaluated at `idf = 1`,
`tf = 0..3`, and a one-term query against an empty TF table. -/
theorem claim_lexical_saturation_witness :
    (0:ℝ) < 1 ∧ lexContrib 1 0 = 0 ∧ lexContrib 1 2 ≤ lexContrib 1 3 ∧
    lexContrib 1 2 - lexContrib 1 1 < lexContrib 1 1 - lexContrib 1 0 ∧
    sparseScore [] [] ["video".toList] = 0 :=
  ⟨one_pos, (claim_lexical_saturation 1 one_pos).1,
   (claim_lexical_saturation 1 one_pos).2.1 2 3 (by norm_num),
   (claim_lexical_saturation 1 one_pos).2.2.1 0,
   (claim_lexical_saturation 1 one_pos).2.2.2 [] [] ["video".toList]
     (fun t _ => rfl)⟩

/- ---------------- document frequency and IDF (C4) ---------------------- -/

theorem bumpDf_not_mem (terms : List (List Char)) :
    ∀ m t, t ∉ terms → alistLookup (bumpDf m terms) t = alistLookup m t := by
  induction terms with
  | nil => intro m t _; rfl
  | cons u rest ih =>
    intro m t ht
    rw [bumpDf]
    rw [ih _ t (fun h => ht (List.mem_cons_of_mem u h))]
    exact alistLookup_set_ne _ _ _ _
      (fun he => ht (by rw [he]; exact List.mem_cons_self u rest))

theorem bumpDf_lookup (terms : List (List Char)) :
    ∀ m t, terms.Nodup → t ∈ terms →
      alistLookup (bumpDf m terms) t = some ((alistLookup m t).getD 0 + 1) := by
  induction terms with
  | nil => intro m t _ ht; cases ht
  | cons u rest ih =>
    intro m t hn ht
    rw [bumpDf]
    rcases List.mem_cons.mp ht with rfl | hmem
    · rw [bumpDf_not_mem rest _ t (List.nodup_cons.mp hn).1, alistLookup_set_self]
    · have hne : t ≠ u := fun he => (List.nodup_cons.mp hn).1 (he ▸ hmem)
      rw [ih _ t (List.nodup_cons.mp hn).2 hmem, alistLookup_set_ne _ _ _ _ hne]

theorem dfCount_cons_mem (d : Chunk) (rest : List Chunk) (t : List Char)
    (h : t ∈ uniqueJs (tokenize d.chunk)) :
    dfCount (d :: rest) t = dfCount rest t + 1 := by
  simp [dfCount, List.filter_cons, h]

theorem dfCount_cons_not_mem (d : Chunk) (rest : List Chunk) (t : List Char)
    (h : t ∉ uniqueJs (tokenize d.chunk)) :
    dfCount (d :: rest) t = dfCount rest t := by
  simp [dfCount, List.filter_cons, h]

theorem buildDfFrom_lookup (kb : List Chunk) :
    ∀ m t, alistLookup (buildDfFrom m kb) t =
      if dfCount kb t = 0 then alistLookup m t
      else some ((alistLookup m t).getD 0 + dfCount kb t) := by
  induction kb with
  | nil => intro m t; simp [buildDfFrom, dfCount]
  | cons d rest ih =>
    intro m t
    rw [buildDfFrom]
    by_cases hmem : t ∈ uniqueJs (tokenize d.chunk)
    · rw [dfCount_cons_mem d rest t hmem, ih _ t]
      have hb := bumpDf_lookup (uniqueJs (tokenize d.chunk)) m t (nodup_uniqueJs _) hmem
      by_cases hc : dfCount rest t = 0
      · simp [hc, hb]
      · rw [if_neg hc, if_neg (by omega), hb]
        simp
        omega
    · rw [dfCount_cons_not_mem d rest t hmem, ih _ t, bumpDf_not_mem _ _ t hmem]

theorem buildDf_lookup (kb : List Chunk) (t : List Char) :
    alistLookup (buildDf kb) t =
      if dfCount kb t = 0 then none else some (dfCount kb t) := by
  rw [buildDf, buildDfFrom_lookup]
  simp [alistLookup]

theorem alistLookup_map_value {β γ : Type} (m : List (List Char × β))
    (h : List Char → β → γ) (t : List Char) :
    alistLookup (m.map (fun p => (p.1, h p.1 p.2))) t = (alistLookup m t).map (h t) := by
  induction m with
  | nil => rfl
  | cons p rest ih =>
    obtain ⟨a, b⟩ := p
    by_cases hat : a = t
    · subst hat
      simp [alistLookup]
    · simp [alistLookup, hat, ih]

theorem buildVocabIdf_lookup (kb : List Chunk) (t : List Char) :
    alistLookup (buildVocabIdf kb) t =
      if dfCount kb t = 0 then none
      else some (Real.log (((jsN kb : ℝ) + 1) / ((dfCount kb t : ℝ) + 0.5))) := by
  rw [buildVocabIdf,
    alistLookup_map_value (buildDf kb)
      (fun _ n => Real.log (((jsN kb : ℝ) + 1) / ((n : ℝ) + 0.5))) t,
    buildDf_lookup]
  by_cases h : dfCount kb t = 0 <;> simp [h]

theorem dfCount_ne_zero_iff (kb : List Chunk) (t : List Char) :
    dfCount kb t ≠ 0 ↔ ∃ d ∈ kb, t ∈ tokenize d.chunk := by
  rw [dfCount]
  rw [ne_eq, List.length_eq_zero]
  constructor
  · intro h
    rcases List.exists_mem_of_ne_nil _ h with ⟨d, hd⟩
    have := List.mem_filter.mp hd
    exact ⟨d, this.1, (mem_uniqueJs _ _).mp (by simpa using this.2)⟩
  · rintro ⟨d, hd, ht⟩ hnil
    have : d ∈ kb.filter (fun d => decide (t ∈ uniqueJs (tokenize d.chunk))) :=
      List.mem_filter.mpr ⟨hd, by simpa using (mem_uniqueJs _ _).mpr ht⟩
    rw [hnil] at this
    cases this

theorem dfCount_all (kb : List Chunk) (t : List Char)
    (h : ∀ d ∈ kb, t ∈ tokenize d.chunk) : dfCount kb t = kb.length := by
  have heq : kb.filter (fun d => decide (t ∈ uniqueJs (tokenize d.chunk))) = kb :=
    List.filter_eq_self.mpr (fun d hd => by simpa using (mem_uniqueJs _ _).mpr (h d hd))
  rw [dfCount, heq]

/-- C4: in a generation with `N ≥ 1` chunks, every term occurring in at
least one chunk carries IDF `ln((N + 1) / (df + 0.5))`; a term occurring in
every chunk carries `ln((N + 1) / (N + 0.5))`, which is strictly positive;
and a term occurring in no chunk has no entry in the IDF table. -/
theorem claim_idf_formula (kb : List Chunk) (hN : 1 ≤ kb.length) (t : List Char) :
    ((∃ d ∈ kb, t ∈ tokenize d.chunk) →
      alistLookup (buildVocabIdf kb) t =
        some (Real.log (((kb.length : ℝ) + 1) / ((dfCount kb t : ℝ) + 0.5)))) ∧
    ((∀ d ∈ kb, t ∈ tokenize d.chunk) →
      alistLookup (buildVocabIdf kb) t =
        some (Real.log (((kb.length : ℝ) + 1) / ((kb.length : ℝ) + 0.5))) ∧
      0 < Real.log (((kb.length : ℝ) + 1) / ((kb.length : ℝ) + 0.5))) ∧
    ((∀ d ∈ kb, t ∉ tokenize d.chunk) → alistLookup (buildVocabIdf kb) t = none) := by
  have hjs : jsN kb = kb.length := by
    rw [jsN, if_neg]
    omega
  refine ⟨?_, ?_, ?_⟩
  · intro hex
    have hdf : dfCount kb t ≠ 0 := (dfCount_ne_zero_iff kb t).mpr hex
    rw [buildVocabIdf_lookup, if_neg hdf, hjs]
  · intro hall
    have hne : kb ≠ [] := by
      intro h
      rw [h] at hN
      simp at hN
    obtain ⟨d0, hd0⟩ := List.exists_mem_of_ne_nil kb hne
    have hdf : dfCount kb t = kb.length := dfCount_all kb t hall
    have hdfne : dfCount kb t ≠ 0 := by omega
    constructor
    · rw [buildVocabIdf_lookup, if_neg hdfne, hjs, hdf]
    · apply Real.log_pos
      rw [one_lt_div (by positivity)]
      norm_num
  · intro hnone
    have hdf : dfCount kb t = 0 := by
      by_contra h
      obtain ⟨d, hd, ht⟩ := (dfCount_ne_zero_iff kb t).mp h
      exact hnone d hd ht
    rw [buildVocabIdf_lookup, if_pos hdf]

/-- C4 witness: the IDF claim evaluated on a one-chunk generation whose
chunk text is `"hello world hello"` and the term `"hello"`. -/
theorem claim_idf_formula_witness :
    1 ≤ kbC4.length ∧
    (alistLookup (buildVocabIdf kbC4) "hello".toList =
      some (Real.log (((kbC4.length : ℝ) + 1) / ((kbC4.length : ℝ) + 0.5))) ∧
     0 < Real.log (((kbC4.length : ℝ) + 1) / ((kbC4.length : ℝ) + 0.5))) :=
  ⟨by decide, (claim_idf_formula kbC4 (by decide) "hello".toList).2.1 (by decide)⟩

/- ---------------- chunk ids and TF tables (C9) ------------------------- -/

theorem pushChunks_length (url : List Char) :
    ∀ (pieces : List (List Char)) (kb : List Chunk),
      (pushChunks kb url pieces).length = kb.length + pieces.length := by
  intro pieces
  induction pieces with
  | nil => intro kb; simp [pushChunks]
  | cons c rest ih =>
    intro kb
    rw [pushChunks, ih]
    simp [List.length_append]
    omega

theorem pushChunks_ids (url : List Char) :
    ∀ (pieces : List (List Char)) (kb : List Chunk),
      kb.map (fun d => d.id) = List.range kb.length →
      (pushChunks kb url pieces).map (fun d => d.id) =
        List.range (pushChunks kb url pieces).length := by
  intro pieces
  induction pieces with
  | nil => intro kb h; simpa [pushChunks] using h
  | cons c rest ih =>
    intro kb h
    rw [pushChunks]
    apply ih
    simp only [List.map_append, List.length_append, List.map_cons, List.map_nil, h,
      List.length_cons, List.length_nil]
    rw [← List.range_succ]

theorem crawlPagesFrom_ids (fr : List Char → Option (List Char)) :
    ∀ (urls : List (List Char)) (kb : List Chunk),
      kb.map (fun d => d.id) = List.range kb.length →
      (crawlPagesFrom fr kb urls).map (fun d => d.id) =
        List.range (crawlPagesFrom fr kb urls).length := by
  intro urls
  induction urls with
  | nil => intro kb h; simpa [crawlPagesFrom] using h
  | cons url rest ih =>
    intro kb h
    rw [crawlPagesFrom]
    cases fr url with
    | none => exact ih kb h
    | some doc => exact ih _ (pushChunks_ids url _ kb h)

theorem crawlPages_ids (fr : List Char → Option (List Char)) (urls : List (List Char)) :
    (crawlPages fr urls).map (fun d => d.id) = List.range (crawlPages fr urls).length :=
  crawlPagesFrom_ids fr urls [] (by simp)

theorem buildChunkTfFrom_not_mem (kb : List Chunk) :
    ∀ (m : List (Nat × List (List Char × Nat))) (k : Nat), (∀ d ∈ kb, d.id ≠ k) →
      alistLookup (buildChunkTfFrom m kb) k = alistLookup m k := by
  induction kb with
  | nil => intro m k _; rfl
  | cons e rest ih =>
    intro m k h
    rw [buildChunkTfFrom]
    rw [ih _ k (fun d hd => h d (List.mem_cons_of_mem e hd))]
    exact alistLookup_set_ne _ _ _ _ (Ne.symm (h e (List.mem_cons_self e rest)))

theorem buildChunkTfFrom_lookup (kb : List Chunk) :
    ∀ (m : List (Nat × List (List Char × Nat))) (d : Chunk), d ∈ kb →
      (kb.map (fun d => d.id)).Nodup →
      alistLookup (buildChunkTfFrom m kb) d.id = some (tfOfChunk d.chunk) := by
  induction kb with
  | nil => intro m d hd; cases hd
  | cons e rest ih =>
    intro m d hd hnd
    rw [List.map_cons, List.nodup_cons] at hnd
    rw [buildChunkTfFrom]
    rcases List.mem_cons.mp hd with rfl | hmem
    · rw [buildChunkTfFrom_not_mem rest _ d.id
        (fun c hc he => hnd.1 (he ▸ List.mem_map_of_mem (fun x => x.id) hc))]
      exact alistLookup_set_self _ _ _
    · exact ih _ d hmem hnd.2

theorem buildChunkTfFrom_keys (kb : List Chunk) :
    ∀ (m : List (Nat × List (List Char × Nat))),
      (∀ d ∈ kb, d.id ∉ alistKeys m) → (kb.map (fun d => d.id)).Nodup →
      alistKeys (buildChunkTfFrom m kb) = alistKeys m ++ kb.map (fun d => d.id) := by
  induction kb with
  | nil => intro m _ _; simp [buildChunkTfFrom]
  | cons e rest ih =>
    intro m hm hnd
    rw [List.map_cons, List.nodup_cons] at hnd
    rw [buildChunkTfFrom,
      alistSet_of_not_mem m e.id _ (hm e (List.mem_cons_self e rest))]
    rw [ih _ ?_ hnd.2]
    · simp [alistKeys]
    · intro d hd
      simp only [alistKeys, List.map_append, List.mem_append]
      rintro (hin | hin)
      · exact hm d (List.mem_cons_of_mem e hd) hin
      · simp only [List.map_cons, List.map_nil, List.mem_singleton] at hin
        exact hnd.1 (hin ▸ List.mem_map_of_mem (fun x => x.id) hd)

theorem setTfTerms_not_mem (text : List Char) (terms : List (List Char)) :
    ∀ tf t, t ∉ terms → alistLookup (setTfTerms text tf terms) t = alistLookup tf t := by
  induction terms with
  | nil => intro tf t _; rfl
  | cons u rest ih =>
    intro tf t ht
    rw [setTfTerms]
    rw [ih _ t (fun h => ht (List.mem_cons_of_mem u h))]
    exact alistLookup_set_ne _ _ _ _
      (fun he => ht (by rw [he]; exact List.mem_cons_self u rest))

theorem setTfTerms_lookup (text : List Char) (terms : List (List Char)) :
    ∀ tf t, terms.Nodup → t ∈ terms →
      alistLookup (setTfTerms text tf terms) t =
        some (if wbCount t text = 0 then 1 else wbCount t text) := by
  induction terms with
  | nil => intro tf t _ ht; cases ht
  | cons u rest ih =>
    intro tf t hn ht
    rw [setTfTerms]
    rcases List.mem_cons.mp ht with rfl | hmem
    · rw [setTfTerms_not_mem text rest _ t (List.nodup_cons.mp hn).1, alistLookup_set_self]
    · have hne : t ≠ u := fun he => (List.nodup_cons.mp hn).1 (he ▸ hmem)
      rw [ih _ t (List.nodup_cons.mp hn).2 hmem]

theorem tfOfChunk_lookup_mem (text : List Char) (t : List Char)
    (ht : t ∈ tokenize text) :
    ∃ k, alistLookup (tfOfChunk text) t = some k ∧ 1 ≤ k := by
  have hmem : t ∈ uniqueJs (tokenize text) := (mem_uniqueJs _ _).mpr ht
  rw [tfOfChunk]
  rw [setTfTerms_lookup text _ [] t (nodup_uniqueJs _) hmem]
  refine ⟨_, rfl, ?_⟩
  by_cases h : wbCount t text = 0
  · simp [h]
  · simp [h]
    omega

/-- C9: within one crawl-built generation, chunk identifiers are the
consecutive integers `0, 1, ...` in crawl order; `CHUNK_TF` has exactly the
chunk identifiers as its keys (one entry per chunk, id as the sole join
key), the entry for a chunk's id being that chunk's TF table; and every
term the tokenizer produces from a chunk's text is present in the chunk's
TF table with frequency at least `1`. -/
theorem claim_chunk_id_invariants (fr : List Char → Option (List Char))
    (urls : List (List Char)) :
    ((crawlPages fr urls).map (fun d => d.id) = List.range (crawlPages fr urls).length) ∧
    (alistKeys (buildChunkTf (crawlPages fr urls)) = (crawlPages fr urls).map (fun d => d.id)) ∧
    (∀ d ∈ crawlPages fr urls,
      alistLookup (buildChunkTf (crawlPages fr urls)) d.id = some (tfOfChunk d.chunk)) ∧
    (∀ text : List Char, ∀ t ∈ tokenize text,
      ∃ k, alistLookup (tfOfChunk text) t = some k ∧ 1 ≤ k) := by
  have hids := crawlPages_ids fr urls
  have hnd : ((crawlPages fr urls).map (fun d => d.id)).Nodup := by
    rw [hids]
    exact List.nodup_range _
  refine ⟨hids, ?_, ?_, ?_⟩
  · simpa [alistKeys] using
      buildChunkTfFrom_keys (crawlPages fr urls) [] (by simp [alistKeys]) hnd
  · intro d hd
    exact buildChunkTfFrom_lookup (crawlPages fr urls) [] d hd hnd
  · intro text t ht
    exact tfOfChunk_lookup_mem text t ht

/-- C9 witness: the invariants evaluated on the one-page crawl of the
services URL, and the TF entry of `"hello"` in `"hello world"`. -/
theorem claim_chunk_id_invariants_witness :
    ((crawlPages fetchC2 [urlServices]).map (fun d => d.id) =
      List.range (crawlPages fetchC2 [urlServices]).length) ∧
    (∃ k, alistLookup (tfOfChunk "hello world".toList) "hello".toList = some k ∧ 1 ≤ k) :=
  ⟨(claim_chunk_id_invariants fetchC2 [urlServices]).1,
   (claim_chunk_id_invariants fetchC2 [urlServices]).2.2.2 "hello world".toList
     "hello".toList (by decide)⟩

/- ---------------- hybrid scoring and ranking (C5) ---------------------- -/

theorem scoredGo_eq (st : KBState) (qv : List ℝ) (terms : List (List Char)) :
    ∀ l : List Chunk,
      scoredGo st qv terms l =
        (l.map (fun d => (d, scoreChunk st qv terms d))).filter
          (fun p => decide (0 < p.2)) := by
  intro l
  induction l with
  | nil => rfl
  | cons d rest ih =>
    rw [scoredGo]
    by_cases h : 0 < scoreChunk st qv terms d
    · simp [h, ih, List.filter_cons]
    · simp [h, ih, List.filter_cons]

theorem scoredGo_mem (st : KBState) (qv : List ℝ) (terms : List (List Char))
    (l : List Chunk) (p : Chunk × ℝ) (hp : p ∈ scoredGo st qv terms l) :
    p.1 ∈ l ∧ p.2 = scoreChunk st qv terms p.1 ∧ 0 < p.2 := by
  rw [scoredGo_eq] at hp
  have h1 := List.mem_filter.mp hp
  obtain ⟨d, hd, rfl⟩ := List.mem_map.mp h1.1
  exact ⟨hd, rfl, by simpa using h1.2⟩

theorem rankDesc_perm (l : List (Chunk × ℝ)) : (rankDesc l).Perm l :=
  List.perm_insertionSort _ l

theorem rankDesc_sorted (l : List (Chunk × ℝ)) :
    (rankDesc l).Sorted (fun p q : Chunk × ℝ => q.2 ≤ p.2) := by
  haveI : IsTotal (Chunk × ℝ) (fun p q => q.2 ≤ p.2) := ⟨fun a b => le_total b.2 a.2⟩
  haveI : IsTrans (Chunk × ℝ) (fun p q => q.2 ≤ p.2) :=
    ⟨fun a b c hab hbc => le_trans hbc hab⟩
  exact List.sorted_insertionSort _ l

theorem orderedInsert_filter_eq (x : Chunk × ℝ) (l : List (Chunk × ℝ)) (c : ℝ)
    (hx : x.2 = c) :
    (List.orderedInsert (fun p q : Chunk × ℝ => q.2 ≤ p.2) x l).filter
        (fun p => decide (p.2 = c)) =
      x :: l.filter (fun p => decide (p.2 = c)) := by
  induction l with
  | nil => simp [hx]
  | cons y ys ih =>
    rw [List.orderedInsert]
    by_cases h : y.2 ≤ x.2
    · rw [if_pos h]
      simp [List.filter_cons, hx]
    · rw [if_neg h]
      have hyc : ¬(y.2 = c) := by
        rw [← hx]
        intro he
        exact h (le_of_eq he)
      simp [List.filter_cons, hyc, ih]

theorem orderedInsert_filter_ne (x : Chunk × ℝ) (l : List (Chunk × ℝ)) (c : ℝ)
    (hx : x.2 ≠ c) :
    (List.orderedInsert (fun p q : Chunk × ℝ => q.2 ≤ p.2) x l).filter
        (fun p => decide (p.2 = c)) =
      l.filter (fun p => decide (p.2 = c)) := by
  induction l with
  | nil => simp [hx]
  | cons y ys ih =>
    rw [List.orderedInsert]
    by_cases h : y.2 ≤ x.2
    · rw [if_pos h]
      simp [List.filter_cons, hx]
    · rw [if_neg h]
      simp [List.filter_cons, ih]

theorem rankDesc_filter (l : List (Chunk × ℝ)) (c : ℝ) :
    (rankDesc l).filter (fun p => decide (p.2 = c)) =
      l.filter (fun p => decide (p.2 = c)) := by
  induction l with
  | nil => rfl
  | cons x xs ih =>
    have hstep : rankDesc (x :: xs) =
        List.orderedInsert (fun p q : Chunk × ℝ => q.2 ≤ p.2) x (rankDesc xs) := rfl
    rw [hstep]
    by_cases hx : x.2 = c
    · rw [orderedInsert_filter_eq x _ c hx, ih]
      simp [List.filter_cons, hx]
    · rw [orderedInsert_filter_ne x _ c hx, ih]
      simp [List.filter_cons, hx]

/-- C5: against a fixed generation, the scoring loop keeps exactly the
chunks with positive combined score `0.7 * dense + 0.3 * tanh(sparse)`
(each paired with that score), the ranking is a permutation of them sorted
by non-increasing score, the sort is stable (chunks of equal score keep
their KB order: filtering either list to one score level gives the same
list), at most `TOP_K = 12` ranked chunks feed the context, and for a
non-empty KB the context is built exactly from that ranked prefix. -/
theorem claim_hybrid_scoring (st : KBState) (qv : List ℝ) (query : List Char) :
    (scoredChunks st qv (uniqueJs (tokenize query)) =
      (st.KB.map (fun d => (d, scoreChunk st qv (uniqueJs (tokenize query)) d))).filter
        (fun p => decide (0 < p.2))) ∧
    (rankDesc (scoredChunks st qv (uniqueJs (tokenize query)))).Perm
      (scoredChunks st qv (uniqueJs (tokenize query))) ∧
    (rankDesc (scoredChunks st qv (uniqueJs (tokenize query)))).Sorted
      (fun p q : Chunk × ℝ => q.2 ≤ p.2) ∧
    (∀ c : ℝ,
      (rankDesc (scoredChunks st qv (uniqueJs (tokenize query)))).filter
          (fun p => decide (p.2 = c)) =
        (scoredChunks st qv (uniqueJs (tokenize query))).filter
          (fun p => decide (p.2 = c))) ∧
    ((rankDesc (scoredChunks st qv (uniqueJs (tokenize query)))).take TOP_K).length ≤ TOP_K ∧
    (st.KB.isEmpty = false →
      retrieveContext st qv query =
        buildCtx ((rankDesc (scoredChunks st qv (uniqueJs (tokenize query)))).take TOP_K) []) := by
  refine ⟨scoredGo_eq st qv _ st.KB, rankDesc_perm _, rankDesc_sorted _,
    fun c => rankDesc_filter _ c, ?_, ?_⟩
  · simp [List.length_take]
  · intro h
    rw [retrieveContext, if_neg (by simp [h])]

/-- C5 witness: the scoring claim evaluated on a one-chunk state. -/
theorem claim_hybrid_scoring_witness :
    ((rankDesc (scoredChunks ⟨kbC4, [], []⟩ [1] (uniqueJs (tokenize "a".toList)))).take
      TOP_K).length ≤ TOP_K ∧
    retrieveContext ⟨kbC4, [], []⟩ [1] "a".toList =
      buildCtx
        ((rankDesc (scoredChunks ⟨kbC4, [], []⟩ [1] (uniqueJs (tokenize "a".toList)))).take
          TOP_K) [] :=
  ⟨(claim_hybrid_scoring ⟨kbC4, [], []⟩ [1] "a".toList).2.2.2.2.1,
   (claim_hybrid_scoring ⟨kbC4, [], []⟩ [1] "a".toList).2.2.2.2.2 rfl⟩

/- ---------------- context budget (C1) ---------------------------------- -/

theorem srcTag_length : ("[Source] ".toList).length = 9 := rfl

theorem urlServices_length : urlServices.length = 44 := rfl

theorem urlAbout_length : urlAbout.length = 44 := rfl

theorem renderEntry_length (d : Chunk) :
    (renderEntry d).length = 12 + d.url.length + d.chunk.length := by
  simp [renderEntry, List.length_append, srcTag_length]
  omega

theorem url_le_maxUrlLen (kb : List Chunk) (d : Chunk) (hd : d ∈ kb) :
    d.url.length ≤ maxUrlLen kb := by
  induction kb with
  | nil => cases hd
  | cons e rest ih =>
    rcases List.mem_cons.mp hd with rfl | hmem
    · exact le_max_left _ _
    · exact le_trans (ih hmem) (le_max_right _ _)

theorem buildCtx_length_le (U : Nat) :
    ∀ (l : List (Chunk × ℝ)) (ctx : List Char),
      (∀ p ∈ l, p.1.url.length ≤ U) →
      (buildCtx l ctx).length ≤ max ctx.length (MAX_CONTEXT + 12 + U) := by
  intro l
  induction l with
  | nil =>
    intro ctx _
    rw [buildCtx]
    exact le_max_left _ _
  | cons p rest ih =>
    intro ctx hU
    obtain ⟨d, s⟩ := p
    rw [buildCtx]
    by_cases h : MAX_CONTEXT < ctx.length + d.chunk.length
    · rw [if_pos h]
      exact le_max_left _ _
    · rw [if_neg h]
      have hrec := ih (ctx ++ renderEntry d) (fun q hq => hU q (List.mem_cons_of_mem _ hq))
      apply le_trans hrec
      apply max_le ?_ (le_max_right _ _)
      have hu : d.url.length ≤ U := hU (d, s) (List.mem_cons_self _ _)
      apply le_trans ?_ (le_max_right _ _)
      rw [List.length_append, renderEntry_length]
      simp only [MAX_CONTEXT] at h ⊢
      omega

theorem buildCtx_prefix :
    ∀ (l : List (Chunk × ℝ)) (ctx : List Char),
      ∃ k, buildCtx l ctx = ctx ++ ((l.take k).map (fun p => renderEntry p.1)).flatten := by
  intro l
  induction l with
  | nil =>
    intro ctx
    exact ⟨0, by simp [buildCtx]⟩
  | cons p rest ih =>
    intro ctx
    obtain ⟨d, s⟩ := p
    rw [buildCtx]
    by_cases h : MAX_CONTEXT < ctx.length + d.chunk.length
    · rw [if_pos h]
      exact ⟨0, by simp⟩
    · rw [if_neg h]
      obtain ⟨k, hk⟩ := ih (ctx ++ renderEntry d)
      exact ⟨k + 1, by simp [hk, List.take_succ_cons, List.append_assoc]⟩

theorem ranked_take_mem (st : KBState) (qv : List ℝ) (terms : List (List Char))
    (p : Chunk × ℝ) (hp : p ∈ (rankDesc (scoredChunks st qv terms)).take TOP_K) :
    p.1 ∈ st.KB := by
  have h1 : p ∈ rankDesc (scoredChunks st qv terms) := List.mem_of_mem_take hp
  have h2 : p ∈ scoredChunks st qv terms := (rankDesc_perm _).subset h1
  exact (scoredGo_mem st qv terms st.KB p h2).1

/-- C1 amended: the budget check of `retrieveContext` counts only the
accumulated context plus the candidate chunk's raw text, while the
`"[Source] " + url + "\n" ... "\n\n"` decoration (12 characters plus the
URL) is appended uncounted; the guaranteed bound is therefore
`MAX_CONTEXT + 12 + (largest chunk URL length)` rather than `MAX_CONTEXT`.
The prefix discipline does hold: the context is the concatenation of the
rendered entries of some prefix of the ranked list — the first chunk
failing the raw-text check and everything ranked below it are omitted
whole, never truncated mid-chunk. -/
theorem claim_context_budget_amended (st : KBState) (qv : List ℝ) (query : List Char) :
    (retrieveContext st qv query).length ≤ MAX_CONTEXT + 12 + maxUrlLen st.KB ∧
    (∃ k, retrieveContext st qv query =
      ((((rankDesc (scoredChunks st qv (uniqueJs (tokenize query)))).take TOP_K).take k).map
        (fun p => renderEntry p.1)).flatten) := by
  rw [retrieveContext]
  by_cases h : st.KB.isEmpty
  · rw [if_pos h]
    exact ⟨by simp, 0, by simp⟩
  · rw [if_neg h]
    constructor
    · have hb := buildCtx_length_le (maxUrlLen st.KB)
        ((rankDesc (scoredChunks st qv (uniqueJs (tokenize query)))).take TOP_K) []
        (fun p hp => url_le_maxUrlLen st.KB p.1 (ranked_take_mem st qv _ p hp))
      simpa using hb
    · obtain ⟨k, hk⟩ := buildCtx_prefix
        ((rankDesc (scoredChunks st qv (uniqueJs (tokenize query)))).take TOP_K) []
      exact ⟨k, by simpa using hk⟩

theorem cosine_one_one : cosine [(1 : ℝ)] [1] = 1 := by
  rw [cosine_def]
  simp [Real.sqrt_one]

theorem scoreChunk_const (st : KBState) (d : Chunk) (hv : d.vec = some [1]) :
    scoreChunk st [1] [] d = 0.7 := by
  have hd : denseOf [1] d = 1 := by
    simp [denseOf, hv, cosine_one_one]
  have hsp : sparseOf st [] d = 0 := by
    cases halk : alistLookup st.CHUNK_TF d.id with
    | none => simp [sparseOf, halk]
    | some tf => simp [sparseOf, halk, sparseScore, sparseGo]
  rw [scoreChunk, hd, hsp, Real.tanh_zero]
  norm_num

theorem scoredGo_all_const (st : KBState) :
    ∀ l : List Chunk, (∀ d ∈ l, d.vec = some [1]) →
      scoredGo st [1] [] l = l.map (fun d => (d, (0.7 : ℝ))) := by
  intro l
  induction l with
  | nil => intro _; rfl
  | cons d rest ih =>
    intro hv
    rw [scoredGo, scoreChunk_const st d (hv d (List.mem_cons_self _ _)),
      if_pos (by norm_num), ih (fun e he => hv e (List.mem_cons_of_mem _ he))]
    simp

theorem rankDesc_all_const (c : ℝ) :
    ∀ l : List (Chunk × ℝ), (∀ p ∈ l, p.2 = c) → rankDesc l = l := by
  intro l
  induction l with
  | nil => intro _; rfl
  | cons x xs ih =>
    intro hc
    have hstep : rankDesc (x :: xs) =
        List.orderedInsert (fun p q : Chunk × ℝ => q.2 ≤ p.2) x (rankDesc xs) := rfl
    rw [hstep, ih (fun p hp => hc p (List.mem_cons_of_mem _ hp))]
    cases xs with
    | nil => rfl
    | cons y ys =>
      rw [List.orderedInsert, if_pos]
      rw [hc y (by simp), hc x (by simp)]

theorem buildCtx_cons_fit (d : Chunk) (s : ℝ) (rest : List (Chunk × ℝ)) (ctx : List Char)
    (h : ¬ MAX_CONTEXT < ctx.length + d.chunk.length) :
    buildCtx ((d, s) :: rest) ctx = buildCtx rest (ctx ++ renderEntry d) := by
  rw [buildCtx, if_neg h]

/-- C1 counterexample: a crawl-shaped generation (eleven chunks, each at
most `CHUNK_SIZE` characters, real site URLs) and a query on which
`retrieveContext` returns a context of 9016 characters — strictly more
than `MAX_CONTEXT = 9000` — because the per-entry `"[Source] "`, URL and
newline decoration is not counted by the budget check. -/
theorem claim_context_budget_cex :
    MAX_CONTEXT < (retrieveContext stC1 [1] "a".toList).length := by
  have hK : stC1.KB.isEmpty = false := rfl
  rw [retrieveContext, if_neg (by simp [hK])]
  have ht : tokenize "a".toList = [] := by decide
  have hq : uniqueJs (tokenize "a".toList) = [] := by rw [ht, uniqueJs]
  rw [hq]
  have hsc : scoredChunks stC1 [1] [] = kbC1.map (fun d => (d, (0.7 : ℝ))) := by
    rw [scoredChunks, show stC1.KB = kbC1 from rfl]
    apply scoredGo_all_const
    intro d hd
    simp only [kbC1, List.mem_cons, List.not_mem_nil, or_false] at hd
    rcases hd with rfl | rfl | rfl | rfl | rfl | rfl | rfl | rfl | rfl | rfl | rfl <;> rfl
  rw [hsc, rankDesc_all_const 0.7 _ (by
    intro p hp
    obtain ⟨d, _, rfl⟩ := List.mem_map.mp hp
    rfl)]
  have h11 : (kbC1.map (fun d => (d, (0.7 : ℝ)))).length = 11 := by
    rw [kbC1]
    rfl
  rw [List.take_of_length_le (by rw [h11]; decide)]
  rw [kbC1]
  simp only [List.map_cons, List.map_nil]
  repeat
    rw [buildCtx_cons_fit _ _ _ _ (by
      simp only [List.length_append, List.nil_append, renderEntry_length,
        urlServices_length, urlAbout_length, List.length_replicate, List.length_nil,
        MAX_CONTEXT]
      omega)]
  rw [buildCtx]
  simp only [List.length_append, List.nil_append, renderEntry_length,
    urlServices_length, urlAbout_length, List.length_replicate, List.length_nil,
    MAX_CONTEXT]
  omega

/- ---------------- re-index isolation (C2) ------------------------------ -/

theorem crawlPagesFrom_cons_some (fr : List Char → Option (List Char))
    (kb : List Chunk) (url : List Char) (rest : List (List Char)) (doc : List Char)
    (h : fr url = some doc) :
    crawlPagesFrom fr kb (url :: rest) =
      crawlPagesFrom fr (pushChunks kb url (chunkText doc CHUNK_SIZE)) rest := by
  rw [crawlPagesFrom, h]

theorem chunkText_ne_nil (s : List Char) (n : Nat) (hs : s ≠ []) (hn : 0 < n) :
    chunkText s n ≠ [] := by
  rw [chunkText_cons s n hs hn]
  simp

/-- C2 counterexample: with two fetchable pages, the state the globals are
in while `crawl` awaits the second page fetch — an observable state for any
query served during that await — has one chunk in `KB` while `VOCAB_IDF`
and `CHUNK_TF` are empty: a generation with chunks but no lexical
statistics, which the claim says is never observable. -/
theorem claim_reindex_isolation_cex :
    ∃ s ∈ crawlStates fetchC2 [urlServices, urlAbout] embedC2,
      s.KB.length = 1 ∧ s.VOCAB_IDF = [] ∧ s.CHUNK_TF = [] := by
  refine ⟨⟨crawlPages fetchC2 ([urlServices, urlAbout].take 1), [], []⟩, ?_, ?_, rfl, rfl⟩
  · simp only [crawlStates]
    apply List.mem_append_left
    apply List.mem_append_left
    apply List.mem_cons_of_mem
    exact List.mem_map.mpr ⟨1, List.mem_range.mpr (by decide), rfl⟩
  · show (crawlPages fetchC2 ([urlServices, urlAbout].take 1)).length = 1
    have htake : ([urlServices, urlAbout].take 1) = [urlServices] := rfl
    have hf : fetchC2 urlServices = some docC2 := by simp [fetchC2]
    have hdlen : docC2.length = 200 := by rw [docC2, List.length_replicate]
    have hdne : docC2 ≠ [] := by
      intro h
      rw [h] at hdlen
      simp at hdlen
    rw [htake, crawlPages, crawlPagesFrom_cons_some fetchC2 [] urlServices [] docC2 hf,
      crawlPagesFrom, pushChunks_length]
    have hdoc : chunkText docC2 CHUNK_SIZE = [docC2] := by
      rw [chunkText_cons docC2 CHUNK_SIZE hdne (by decide)]
      have h1 : docC2.take CHUNK_SIZE = docC2 :=
        List.take_of_length_le (by rw [hdlen]; decide)
      have h2 : docC2.drop CHUNK_SIZE = [] :=
        List.drop_eq_nil_of_le (by rw [hdlen]; decide)
      rw [h1, h2, chunkText_nil]
    rw [hdoc]
    rfl

/-- C2 amended: `crawl` clears the module-level `KB`, `VOCAB_IDF` and
`CHUNK_TF` up front and republishes them incrementally in place across its
`await` points, so publication is not atomic: whenever at least two URLs
are crawled and the first page fetch succeeds with non-empty text, there is
an observable intermediate state (served to any concurrent query) whose KB
already has chunks while both lexical tables are still empty. -/
theorem claim_reindex_isolation_amended (fr : List Char → Option (List Char))
    (urls : List (List Char)) (ev : Nat → List ℝ) (u : List Char)
    (rest : List (List Char)) (doc : List Char) (hurls : urls = u :: rest)
    (hrest : rest ≠ []) (hfr : fr u = some doc) (hdoc : doc ≠ []) :
    ∃ s ∈ crawlStates fr urls ev, s.KB ≠ [] ∧ s.VOCAB_IDF = [] ∧ s.CHUNK_TF = [] := by
  refine ⟨⟨crawlPages fr (urls.take 1), [], []⟩, ?_, ?_, rfl, rfl⟩
  · simp only [crawlStates]
    apply List.mem_append_left
    apply List.mem_append_left
    apply List.mem_cons_of_mem
    refine List.mem_map.mpr ⟨1, List.mem_range.mpr ?_, rfl⟩
    rw [hurls]
    have := List.length_pos.mpr hrest
    simp only [List.length_cons]
    omega
  · show crawlPages fr (urls.take 1) ≠ []
    rw [hurls]
    have htake : ((u :: rest).take 1) = [u] := by
      cases rest <;> rfl
    rw [htake, crawlPages, crawlPagesFrom_cons_some fr [] u [] doc hfr, crawlPagesFrom]
    have hpos : 0 < (pushChunks [] u (chunkText doc CHUNK_SIZE)).length := by
      rw [pushChunks_length]
      have := List.length_pos.mpr (chunkText_ne_nil doc CHUNK_SIZE hdoc (by decide))
      omega
    exact List.length_pos.mp hpos

/-- C2 amended witness: the amended claim at the concrete two-page crawl. -/
theorem claim_reindex_isolation_amended_witness :
    ∃ s ∈ crawlStates fetchC2 [urlServices, urlAbout] embedC2,
      s.KB ≠ [] ∧ s.VOCAB_IDF = [] ∧ s.CHUNK_TF = [] :=
  claim_reindex_isolation_amended fetchC2 [urlServices, urlAbout] embedC2 urlServices
    [urlAbout] docC2 rfl (by simp) (by simp [fetchC2]) (by decide)

/- ---------------- the two implementations (C8) ------------------------- -/

theorem chunkText_alt_eq : ∀ (s : List Char) (n : Nat), chunkText_alt s n = chunkText s n := by
  intro s n
  induction s, n using chunkText_alt.induct with
  | case1 s n h => rw [chunkText_alt, chunkText, if_pos h, if_pos h]
  | case2 s h =>
    rw [chunkText_alt, chunkText, if_neg h, if_neg h]
    simp
  | case3 s n h1 h2 ih =>
    rw [chunkText_alt, chunkText, if_neg h1, if_neg h1, if_neg h2, if_neg h2, ih]

theorem startsWith3_shape (a b c : Char) (p : List Char)
    (h : startsWith3 a b c p = true) : ∃ tail, p = a :: b :: c :: tail := by
  cases p with
  | nil => simp [startsWith3] at h
  | cons x q =>
    cases q with
    | nil => simp [startsWith3] at h
    | cons y r =>
      cases r with
      | nil => simp [startsWith3] at h
      | cons z tail =>
        simp only [startsWith3, Bool.and_eq_true, beq_iff_eq] at h
        obtain ⟨⟨rfl, rfl⟩, rfl⟩ := h
        exact ⟨tail, rfl⟩

/-- C8 counterexample: the two implementations are not functionally
equivalent in URL discovery: the sitemap path `"film"` is excluded by the
prev.js language filter (`path.startsWith("fi")`) but kept by the other
implementation's filter (`"fi"` exact or `"fi/"` prefix), so the discovered
URL sets differ on any sitemap containing such a path. -/
theorem claim_impl_equiv_cex :
    excludedLangPath_prev "film".toList = true ∧
    excludedLangPath_alt "film".toList = false := by decide

/-- C8 amended: the chunkers, tokenizers, cosine similarities and lexical
scoring formulas of the two implementations agree on every input, but the
sitemap language filters differ: every path the part_000 filter excludes is
excluded by prev.js as well, and not conversely (prev.js also drops every
path merely beginning with the letters `fi` or `sv`, such as `"film"`). -/
theorem claim_impl_equiv_amended :
    (∀ (s : List Char) (n : Nat), chunkText_alt s n = chunkText s n) ∧
    (∀ s : List Char, tokenize_alt s = tokenize s) ∧
    (∀ a b : List ℝ, cosine_alt a b = cosine a b) ∧
    (∀ (idf : ℝ) (f : ℕ), lexContrib_alt idf f = lexContrib idf f) ∧
    (∀ p : List Char, excludedLangPath_alt p = true → excludedLangPath_prev p = true) ∧
    ¬ (∀ p : List Char, excludedLangPath_prev p = true → excludedLangPath_alt p = true) := by
  refine ⟨chunkText_alt_eq, fun s => rfl, fun a b => rfl, ?_, ?_, ?_⟩
  · intro idf f
    rw [lexContrib_alt, lexContrib]
    ring
  · intro p h
    simp only [excludedLangPath_alt, Bool.or_eq_true, beq_iff_eq] at h
    rcases h with ((hfi | hfis) | hsv) | hsvs
    · subst hfi
      decide
    · obtain ⟨tail, rfl⟩ := startsWith3_shape _ _ _ p hfis
      simp [excludedLangPath_prev, startsWith2]
    · subst hsv
      decide
    · obtain ⟨tail, rfl⟩ := startsWith3_shape _ _ _ p hsvs
      simp [excludedLangPath_prev, startsWith2]
  · intro hall
    have := hall "film".toList (by decide)
    exact absurd this (by decide)

/- ---------------- the /chat handler (C10) ------------------------------ -/

/-- C10: the `/chat` handler replies `"Please type a message."` exactly
when the `message` field is absent (or JSON `null`) or its value is falsy —
in particular the empty string — and a whitespace-only message is truthy,
so it proceeds into retrieval and generation unchanged. -/
theorem claim_chat_empty_message :
    (∀ m : Option JsonVal, chatHandle m = ChatOutcome.rejected ↔
      (m = none ∨ ∃ v, m = some v ∧ truthy v = false)) ∧
    chatHandle (some (JsonVal.vstr [' '])) = ChatOutcome.proceeds (JsonVal.vstr [' ']) := by
  constructor
  · intro m
    cases m with
    | none => simp [chatHandle, truthy]
    | some v =>
      have ht0 : truthy (JsonVal.vstr []) = false := rfl
      by_cases hv : truthy v = true
      · simp [chatHandle, hv]
      · have hv' : truthy v = false := by
          cases htv : truthy v
          · rfl
          · exact absurd htv hv
        simp [chatHandle, hv', ht0]
  · rfl
